import Mathlib

/-!
Verification of the LIF / adaptive-LIF neuron engine in
`src/neuron/utils/neuron.py` of Kanaderu/notebooks.

The Python source is shallowly embedded over the exact reals: `numpy`
floating arithmetic becomes real arithmetic (`Real.exp`, `Real.log`),
numpy arrays become `List ℝ`, and an array's shape is tracked explicitly
where a claim is about shape.  Every definition is translated from the
source; line numbers refer to `src/neuron/utils/neuron.py`.
-/

open Real Filter Set Topology

noncomputable section

/-- Value passed to the Python tuning-curve routines: either a bare scalar
(Python `int`/`float`) or a numpy array, modelled as a list. -/
inductive PyVal where
  | scalar : ℝ → PyVal
  | arr : List ℝ → PyVal

/-- Shape of a `PyVal` in numpy terms: a scalar has shape `()`, a 1-d array
of length `n` has shape `(n,)`. -/
def PyVal.shape : PyVal → List ℕ
  | .scalar _ => []
  | .arr l => [l.length]

/-- Shape of a 1-d numpy array holding `l`. -/
def arrShape (l : List ℝ) : List ℕ := [l.length]

/-- Elementwise action of `th_lif_fi` (neuron.py lines 10-33): the entries
with `u > xt` receive `(tref - tau*log(1 - xt/u))⁻¹`, all others stay at the
`np.zeros_like` value `0`. -/
def th_lif_fi (u tau tref xt : ℝ) : ℝ :=
  if xt < u then (tref - tau * Real.log (1 - xt / u))⁻¹ else 0

/-- Embedding of `th_lif_fi` (neuron.py lines 10-33) including the scalar
handling: a scalar input is first promoted by `u = np.array([u])`, and the
result is always an array. -/
def th_lif_fi_py (u : PyVal) (tau tref xt : ℝ) : List ℝ :=
  (match u with
    | .scalar x => [x]
    | .arr l => l).map (fun x => th_lif_fi x tau tref xt)

/-- Embedding of `th_lif_if` (neuron.py lines 65-85), the closed-form inverse
tuning curve `u = xt/(1-exp((tref-1/f)/tau))`.  The source `assert`s `f > 0`;
the formula itself is embedded as a total real function. -/
def th_lif_if (f tau tref xt : ℝ) : ℝ :=
  xt / (1 - Real.exp ((tref - 1 / f) / tau))

/-- C1: elementwise values of th_lif_fi.  For parameters `tau > 0`,
`tref ≥ 0`, `xt > 0`: every element `u ≤ xt` maps to `0`, every element
`u > xt` maps to `(tref - tau*log(1 - xt/u))⁻¹`; an array input keeps its
shape; a scalar input is promoted to a one-element array (so its output is
the singleton of the scalar result, shape `(1,)`, not a scalar). -/
theorem c1_th_lif_fi_values (tau tref xt : ℝ)
    (htau : 0 < tau) (htref : 0 ≤ tref) (hxt : 0 < xt) :
    (∀ u : ℝ, (u ≤ xt → th_lif_fi u tau tref xt = 0) ∧
      (xt < u → th_lif_fi u tau tref xt = (tref - tau * Real.log (1 - xt / u))⁻¹)) ∧
    (∀ l : List ℝ,
      arrShape (th_lif_fi_py (PyVal.arr l) tau tref xt) = (PyVal.arr l).shape ∧
      ∀ i : ℕ, (th_lif_fi_py (PyVal.arr l) tau tref xt).get? i =
        (l.get? i).map (fun x => th_lif_fi x tau tref xt)) ∧
    (∀ x : ℝ, th_lif_fi_py (PyVal.scalar x) tau tref xt = [th_lif_fi x tau tref xt]) := by
  refine ⟨fun u => ⟨fun h => ?_, fun h => ?_⟩, fun l => ⟨?_, fun i => ?_⟩, fun x => ?_⟩
  · simp [th_lif_fi, not_lt.mpr h]
  · simp [th_lif_fi, h]
  · simp [arrShape, th_lif_fi_py, PyVal.shape]
  · simp [th_lif_fi_py]
  · simp [th_lif_fi_py]

/-- Witness for c1_th_lif_fi_values at tau = 1, tref = 0, xt = 1. -/
theorem c1_th_lif_fi_values_witness :
    (0:ℝ) < 1 ∧ (0:ℝ) ≤ 0 ∧ (0:ℝ) < 1 ∧
    (∀ u : ℝ, (u ≤ 1 → th_lif_fi u 1 0 1 = 0) ∧
      (1 < u → th_lif_fi u 1 0 1 = (0 - 1 * Real.log (1 - 1 / u))⁻¹)) :=
  ⟨by norm_num, by norm_num, by norm_num,
    (c1_th_lif_fi_values 1 0 1 (by norm_num) (by norm_num) (by norm_num)).1⟩

/-- Counterexample to C1 as stated: for the scalar input `u = 2` the output
of th_lif_fi is a one-element array, of shape `(1,)`, which does not match
the scalar's shape `()`. -/
theorem c1_scalar_shape_counterexample :
    arrShape (th_lif_fi_py (PyVal.scalar 2) 1 0 1) = [1] ∧
    (PyVal.scalar 2).shape = [] ∧ ([1] : List ℕ) ≠ [] := by
  refine ⟨by simp [arrShape, th_lif_fi_py], rfl, by simp⟩

/-- C2 (amended): round trip through the closed-form inverse.  For
`tau > 0`, `tref ≥ 0`, `xt > 0` and a rate `f > 0` below the
refractory-limited maximum (`tref * f < 1`, always true when `tref = 0`),
`th_lif_fi (th_lif_if f) = f` exactly. -/
theorem c2_roundtrip (f tau tref xt : ℝ)
    (hf : 0 < f) (htau : 0 < tau) (htref : 0 ≤ tref) (hxt : 0 < xt)
    (hmax : tref * f < 1) :
    th_lif_fi (th_lif_if f tau tref xt) tau tref xt = f := by
  have hfne : f ≠ 0 := ne_of_gt hf
  have hz : (tref - 1 / f) / tau < 0 := by
    apply div_neg_of_neg_of_pos _ htau
    rw [sub_neg]
    rw [lt_div_iff hf] at *
    linarith
  set z := (tref - 1 / f) / tau with hzdef
  have hE1 : Real.exp z < 1 := Real.exp_lt_one_iff.mpr hz
  have hE0 : 0 < Real.exp z := Real.exp_pos z
  have hden : 0 < 1 - Real.exp z := by linarith
  have hu : th_lif_if f tau tref xt = xt / (1 - Real.exp z) := rfl
  have hugt : xt < th_lif_if f tau tref xt := by
    rw [hu]
    rw [lt_div_iff hden]
    nlinarith
  rw [th_lif_fi, if_pos hugt, hu]
  have harg : 1 - xt / (xt / (1 - Real.exp z)) = Real.exp z := by
    field_simp
  rw [harg, Real.log_exp, hzdef]
  have hden2 : tref - tau * ((tref - 1 / f) / tau) = 1 / f := by
    field_simp
    ring
  rw [hden2, one_div, inv_inv]

/-- Witness for c2_roundtrip at f = 1, tau = 1, tref = 0, xt = 1. -/
theorem c2_roundtrip_witness :
    (0:ℝ) < 1 ∧ (0:ℝ) ≤ 0 ∧ (0:ℝ) * 1 < 1 ∧
    th_lif_fi (th_lif_if 1 1 0 1) 1 0 1 = 1 :=
  ⟨by norm_num, by norm_num, by norm_num,
    c2_roundtrip 1 1 0 1 (by norm_num) (by norm_num) (by norm_num) (by norm_num)
      (by norm_num)⟩

/-- Counterexample to C2 as stated: with `tau = 1`, `tref = 1`, `xt = 1` and
the rate `f = 2 > 0` (at or above the refractory bound `1/tref = 1`),
`th_lif_if` returns a negative drive, `th_lif_fi` of it returns `0`, and the
round trip gives `0 ≠ 2`. -/
theorem c2_roundtrip_counterexample :
    th_lif_fi (th_lif_if 2 1 1 1) 1 1 1 = 0 ∧ (0:ℝ) ≠ 2 := by
  constructor
  · have hexp : (1:ℝ) < Real.exp ((1 - 1 / 2) / 1) := by
      rw [show ((1:ℝ) - 1 / 2) / 1 = 1/2 by norm_num]
      calc (1:ℝ) = Real.exp 0 := (Real.exp_zero).symm
        _ < Real.exp (1/2) := Real.exp_lt_exp.mpr (by norm_num)
    have hneg : th_lif_if 2 1 1 1 < 1 := by
      rw [th_lif_if]
      have hden : 1 - Real.exp ((1 - 1 / 2) / 1) < 0 := by linarith
      have : (1:ℝ) / (1 - Real.exp ((1 - 1 / 2) / 1)) < 0 :=
        div_neg_of_pos_of_neg one_pos hden
      linarith
    rw [th_lif_fi, if_neg (not_lt.mpr (le_of_lt hneg))]
  · norm_num

/-- C6 (amended): th_lif_fi performs no parameter validation.  Even with
`tau ≤ 0` or `xt ≤ 0` it returns the ordinary formula value (zero at or
below threshold, `(tref - tau*log(1-xt/u))⁻¹` above) instead of failing;
the source contains no check of `tau` or `xt`. -/
theorem c6_no_domain_check (u tau tref xt : ℝ) (hbad : tau ≤ 0 ∨ xt ≤ 0) :
    th_lif_fi u tau tref xt =
      if xt < u then (tref - tau * Real.log (1 - xt / u))⁻¹ else 0 := rfl

/-- Witness for c6_no_domain_check at tau = -1 (an invalid parameter). -/
theorem c6_no_domain_check_witness :
    ((-1:ℝ) ≤ 0 ∨ (1:ℝ) ≤ 0) ∧
    th_lif_fi 2 (-1) 0 1 =
      if (1:ℝ) < 2 then ((0:ℝ) - (-1) * Real.log (1 - 1 / 2))⁻¹ else 0 :=
  ⟨Or.inl (by norm_num), c6_no_domain_check 2 (-1) 0 1 (Or.inl (by norm_num))⟩

/-- Counterexample to C6 as stated: called with the invalid `tau = -1`
(`tau ≤ 0`), th_lif_fi does not fail; it silently evaluates the formula and
returns the negative value `-(log 2)⁻¹`. -/
theorem c6_counterexample :
    th_lif_fi 2 (-1) 0 1 = -(Real.log 2)⁻¹ ∧ -(Real.log 2)⁻¹ < 0 := by
  constructor
  · rw [th_lif_fi, if_pos (by norm_num : (1:ℝ) < 2)]
    rw [show (1:ℝ) - 1 / 2 = 2⁻¹ by norm_num, Real.log_inv]
    ring_nf
  · simp only [neg_neg, Left.neg_neg_iff]
    exact inv_pos.mpr (Real.log_pos (by norm_num))

/-! ## The spiking integrators (run_lifsoma, run_alifsoma) -/

/-- State of one LIF soma during a run of `run_lifsoma`: membrane voltage and
remaining refractory time (neuron.py lines 465-466). -/
structure LifState where
  V : ℝ
  r : ℝ

/-- State of one adaptive LIF soma during a run of `run_alifsoma`: membrane
voltage, remaining refractory time, and feedback synapse state
(neuron.py lines 549-551). -/
structure AlifState where
  V : ℝ
  r : ℝ
  fs : ℝ

/-- Decay/charge update of `run_lifsoma` (line 470):
`state[i] = decay*state[i-1] + increment*u[i]` with `decay = exp(-dt/tau)`. -/
def lifV1 (dt tau u V : ℝ) : ℝ :=
  Real.exp (-dt / tau) * V + (1 - Real.exp (-dt / tau)) * u

/-- Decay/charge update of `run_alifsoma` (lines 558-559), with the feedback
current subtracted from the input; `fs1` is the already-decayed feedback
state of this step.  The source computes the decays with
`np.expm1(-dt/tau)+1`, which in exact real arithmetic is `exp(-dt/tau)`. -/
def alifV1 (dt taum u af fs1 V : ℝ) : ℝ :=
  Real.exp (-dt / taum) * V + (1 - Real.exp (-dt / taum)) * (u - af * fs1)

/-- Refractory gating factor (lines 478 and 567):
`(1 - refractory_time/dt).clip(0, 1)` after the timer was decremented. -/
def refScale (dt r1 : ℝ) : ℝ := min 1 (max 0 (1 - r1 / dt))

/-- Interpolated within-step spike time (lines 485-486 and 573-574):
`overshoot = (state[i] - xt) / dV` and `interp_spiketime = dt*(1-overshoot)`,
where `state[i]` is the post-gating voltage `v2` and `dV` the pre-gating
voltage change. -/
def spikeInterp (dt xt v2 dV : ℝ) : ℝ := dt * (1 - (v2 - xt) / dV)

/-- One step of `run_lifsoma` (lines 468-493) for one neuron: decay/charge,
refractory decrement and gating, threshold test, interpolation, and the
post-spike reset `state = 0`, `refractory_time = tref + interp_spiketime`.
Returns the new state and the within-step spike time if the neuron spiked. -/
def lifStep (dt tau tref xt u : ℝ) (s : LifState) : LifState × Option ℝ :=
  let v1 := lifV1 dt tau u s.V
  let r1 := s.r - dt
  let v2 := refScale dt r1 * v1
  if xt < v2 then
    (⟨0, tref + spikeInterp dt xt v2 (v1 - s.V)⟩, some (spikeInterp dt xt v2 (v1 - s.V)))
  else
    (⟨v2, r1⟩, none)

/-- One step of `run_alifsoma` (lines 553-586) for one neuron.  The feedback
state first decays (line 555), enters the soma update as a current, and on a
spike receives the impulse `(1-fdecay)/dt` (line 581); the post-spike reset
(lines 577-578) is the same as in `run_lifsoma`. -/
def alifStep (dt taum tref xt af tauf u : ℝ) (s : AlifState) : AlifState × Option ℝ :=
  let fs1 := Real.exp (-dt / tauf) * s.fs
  let v1 := alifV1 dt taum u af fs1 s.V
  let r1 := s.r - dt
  let v2 := refScale dt r1 * v1
  if xt < v2 then
    (⟨0, tref + spikeInterp dt xt v2 (v1 - s.V), fs1 + (1 - Real.exp (-dt / tauf)) / dt⟩,
      some (spikeInterp dt xt v2 (v1 - s.V)))
  else
    (⟨v2, r1, fs1⟩, none)

/-- Loop of `run_lifsoma` for one neuron over the inputs `u[1], u[2], ...`;
`i` is the Python step index, and a spike in step `i` is recorded at time
`interp_spiketime + i*dt` (line 489). -/
def run_lifsoma_aux (dt tau tref xt : ℝ) : List ℝ → LifState → ℕ → List ℝ
  | [], _, _ => []
  | ui :: rest, s, i =>
    match lifStep dt tau tref xt ui s with
    | (s2, some interp) => (interp + (i : ℝ) * dt) :: run_lifsoma_aux dt tau tref xt rest s2 (i + 1)
    | (s2, none) => run_lifsoma_aux dt tau tref xt rest s2 (i + 1)

/-- Embedding of `run_lifsoma` (lines 434-505) for a single neuron: state
starts at `V = 0`, `r = 0`, the loop runs over steps `i = 1 .. nsteps-1`
(`u[0]` only seeds `state[0] = 0`), and the returned value is the list of
interpolated spike times. -/
def run_lifsoma (dt : ℝ) (u : List ℝ) (tau tref xt : ℝ) : List ℝ :=
  run_lifsoma_aux dt tau tref xt (u.drop 1) ⟨0, 0⟩ 1

/-- Loop of `run_alifsoma` for one neuron (spike recorded at
`interp_spiketime + i*dt`, line 586). -/
def run_alifsoma_aux (dt taum tref xt af tauf : ℝ) : List ℝ → AlifState → ℕ → List ℝ
  | [], _, _ => []
  | ui :: rest, s, i =>
    match alifStep dt taum tref xt af tauf ui s with
    | (s2, some interp) =>
      (interp + (i : ℝ) * dt) :: run_alifsoma_aux dt taum tref xt af tauf rest s2 (i + 1)
    | (s2, none) => run_alifsoma_aux dt taum tref xt af tauf rest s2 (i + 1)

/-- Embedding of `run_alifsoma` (lines 508-601) for a single neuron. -/
def run_alifsoma (dt : ℝ) (u : List ℝ) (taum tref xt af tauf : ℝ) : List ℝ :=
  run_alifsoma_aux dt taum tref xt af tauf (u.drop 1) ⟨0, 0, 0⟩ 1

/-- C4 (amended): in both integrators the post-spike reset sets the voltage
to `0` and the refractory timer to `tref + interp_spiketime`, where
`interp_spiketime = dt*(1 - overshoot)` is the interpolated crossing offset
measured from the start of the step - equivalently `tref + dt` minus the
time `dt*overshoot` already elapsed past the crossing, not `tref` plus that
elapsed time. -/
theorem c4_spike_reset :
    (∀ dt tau tref xt u V r,
      xt < refScale dt (r - dt) * lifV1 dt tau u V →
      lifStep dt tau tref xt u ⟨V, r⟩ =
        (⟨0, tref + spikeInterp dt xt (refScale dt (r - dt) * lifV1 dt tau u V)
              (lifV1 dt tau u V - V)⟩,
         some (spikeInterp dt xt (refScale dt (r - dt) * lifV1 dt tau u V)
              (lifV1 dt tau u V - V)))) ∧
    (∀ dt taum tref xt af tauf u V r fs,
      xt < refScale dt (r - dt) *
          alifV1 dt taum u af (Real.exp (-dt / tauf) * fs) V →
      alifStep dt taum tref xt af tauf u ⟨V, r, fs⟩ =
        (⟨0, tref + spikeInterp dt xt
              (refScale dt (r - dt) * alifV1 dt taum u af (Real.exp (-dt / tauf) * fs) V)
              (alifV1 dt taum u af (Real.exp (-dt / tauf) * fs) V - V),
            Real.exp (-dt / tauf) * fs + (1 - Real.exp (-dt / tauf)) / dt⟩,
         some (spikeInterp dt xt
              (refScale dt (r - dt) * alifV1 dt taum u af (Real.exp (-dt / tauf) * fs) V)
              (alifV1 dt taum u af (Real.exp (-dt / tauf) * fs) V - V)))) ∧
    (∀ dt xt v2 dV, spikeInterp dt xt v2 dV = dt - dt * ((v2 - xt) / dV)) := by
  refine ⟨fun dt tau tref xt u V r h => ?_, fun dt taum tref xt af tauf u V r fs h => ?_,
    fun dt xt v2 dV => ?_⟩
  · simp only [lifStep, if_pos h]
  · simp only [alifStep, if_pos h]
  · simp only [spikeInterp]
    ring

/-- Helper: e^(-1) is below one half (since e > 2). -/
lemma exp_neg_one_lt_half : Real.exp (-1 : ℝ) < 1 / 2 := by
  have h2 : (2:ℝ) < Real.exp 1 := by
    have h := Real.exp_one_gt_d9
    norm_num at h ⊢
    linarith
  rw [Real.exp_neg]
  have hinv : (Real.exp 1)⁻¹ < 2⁻¹ := inv_lt_inv_of_lt (by norm_num) h2
  linarith

/-- Witness for c4_spike_reset: at dt = 1, tau = 1, tref = 0, xt = 1, input
u = 2 and state V = 0, r = 0, the step spikes and resets as stated. -/
theorem c4_spike_reset_witness :
    (1:ℝ) < refScale 1 (0 - 1) * lifV1 1 1 2 0 ∧
    lifStep 1 1 0 1 2 ⟨0, 0⟩ =
      (⟨0, 0 + spikeInterp 1 1 (refScale 1 (0 - 1) * lifV1 1 1 2 0) (lifV1 1 1 2 0 - 0)⟩,
       some (spikeInterp 1 1 (refScale 1 (0 - 1) * lifV1 1 1 2 0) (lifV1 1 1 2 0 - 0))) := by
  have hE := exp_neg_one_lt_half
  have hyp : (1:ℝ) < refScale 1 (0 - 1) * lifV1 1 1 2 0 := by
    rw [refScale, lifV1]
    norm_num
    nlinarith
  exact ⟨hyp, c4_spike_reset.1 1 1 0 1 2 0 0 hyp⟩

/-- Counterexample to C4 as stated: at dt = 1, tau = 1, tref = 0, xt = 1,
u = 2, V = r = 0, the step spikes with voltage change dV = 2(1-e⁻¹) and the
reset timer is ((1-e⁻¹)·2)⁻¹ = tref + dt·(1-overshoot), which differs from
tref + dt·overshoot, i.e. from t_ref plus the time already elapsed past the
crossing. -/
theorem c4_counterexample :
    lifStep 1 1 0 1 2 ⟨0, 0⟩ =
      (⟨0, ((1 - Real.exp (-1)) * 2)⁻¹⟩, some (((1 - Real.exp (-1)) * 2)⁻¹)) ∧
    ((1 - Real.exp (-1)) * 2)⁻¹ ≠
      0 + 1 * (((1 - Real.exp (-1)) * 2 - 1) / ((1 - Real.exp (-1)) * 2)) := by
  have hE := exp_neg_one_lt_half
  have hEpos : (0:ℝ) < Real.exp (-1) := Real.exp_pos _
  have hvgt : (1:ℝ) < (1 - Real.exp (-1)) * 2 := by nlinarith
  have hvne : ((1:ℝ) - Real.exp (-1)) * 2 ≠ 0 := by nlinarith
  constructor
  · have hscale : refScale 1 ((0:ℝ) - 1) = 1 := by
      rw [refScale]; norm_num
    have hv : lifV1 1 1 2 0 = (1 - Real.exp (-1)) * 2 := by
      rw [lifV1]; norm_num
    have hcond : (1:ℝ) < refScale 1 ((0:ℝ) - 1) * lifV1 1 1 2 0 := by
      rw [hscale, hv]; linarith
    simp only [lifStep, if_pos hcond]
    rw [hscale, hv]
    have harith : spikeInterp 1 1 (1 * ((1 - Real.exp (-1)) * 2))
        ((1 - Real.exp (-1)) * 2 - 0) = ((1 - Real.exp (-1)) * 2)⁻¹ := by
      rw [spikeInterp]
      simp only [one_mul, sub_zero]
      field_simp
    rw [harith, zero_add]
  · intro h
    rw [zero_add, one_mul] at h
    rw [eq_div_iff hvne, inv_mul_cancel₀ hvne] at h
    linarith

/-! ## C9: spike records are strictly increasing -/

/-- Helper: the refractory gating factor is between 0 and 1. -/
lemma refScale_nonneg (dt r1 : ℝ) : 0 ≤ refScale dt r1 := by
  rw [refScale]
  exact le_min (by norm_num) (le_max_left 0 _)

/-- Helper: the refractory gating factor is at most 1. -/
lemma refScale_le_one (dt r1 : ℝ) : refScale dt r1 ≤ 1 := by
  rw [refScale]
  exact min_le_left _ _

/-- Helper: when a neuron with pre-step voltage `V ≤ xt` crosses the
threshold, the interpolated within-step spike time lies in `[0, dt)`. -/
lemma interp_mem (dt xt v1 V sc : ℝ) (hdt : 0 < dt) (hxt : 0 < xt)
    (h0 : 0 ≤ sc) (h1 : sc ≤ 1) (hV : V ≤ xt) (hs : xt < sc * v1) :
    0 ≤ spikeInterp dt xt (sc * v1) (v1 - V) ∧
      spikeInterp dt xt (sc * v1) (v1 - V) < dt := by
  have hv1pos : 0 < v1 := by
    by_contra hneg
    push_neg at hneg
    have : sc * v1 ≤ 0 := mul_nonpos_of_nonneg_of_nonpos h0 hneg
    linarith
  have hle : sc * v1 ≤ v1 := by nlinarith
  have hdV : 0 < v1 - V := by linarith
  have hnum : 0 < sc * v1 - xt := by linarith
  have hfrac1 : (sc * v1 - xt) / (v1 - V) ≤ 1 := by
    rw [div_le_one hdV]
    linarith
  have hfrac0 : 0 < (sc * v1 - xt) / (v1 - V) := div_pos hnum hdV
  rw [spikeInterp]
  constructor
  · nlinarith
  · nlinarith

/-- Helper: after any lifStep the stored voltage is at most the threshold
(a spiking neuron is reset to 0 and a non-spiking one stores the gated,
sub-threshold voltage). -/
lemma lifStep_V_le (dt tau tref xt u : ℝ) (s : LifState) (hxt : 0 ≤ xt) :
    (lifStep dt tau tref xt u s).1.V ≤ xt := by
  by_cases hc : xt < refScale dt (s.r - dt) * lifV1 dt tau u s.V
  · simp only [lifStep, if_pos hc]
    exact hxt
  · simp only [lifStep, if_neg hc]
    exact not_lt.mp hc

/-- Helper: elimination form of a spiking lifStep. -/
lemma lifStep_spike_elim (dt tau tref xt u : ℝ) (s s2 : LifState) (interp : ℝ)
    (h : lifStep dt tau tref xt u s = (s2, some interp)) :
    xt < refScale dt (s.r - dt) * lifV1 dt tau u s.V ∧
    interp = spikeInterp dt xt (refScale dt (s.r - dt) * lifV1 dt tau u s.V)
      (lifV1 dt tau u s.V - s.V) ∧ s2.V = 0 := by
  by_cases hc : xt < refScale dt (s.r - dt) * lifV1 dt tau u s.V
  · simp only [lifStep, if_pos hc, Prod.mk.injEq, Option.some.injEq] at h
    exact ⟨hc, h.2.symm, by rw [← h.1]⟩
  · simp only [lifStep, if_neg hc, Prod.mk.injEq] at h
    exact absurd h.2 (by simp)

/-- Helper: after any alifStep the stored voltage is at most the threshold. -/
lemma alifStep_V_le (dt taum tref xt af tauf u : ℝ) (s : AlifState) (hxt : 0 ≤ xt) :
    (alifStep dt taum tref xt af tauf u s).1.V ≤ xt := by
  by_cases hc : xt < refScale dt (s.r - dt) *
      alifV1 dt taum u af (Real.exp (-dt / tauf) * s.fs) s.V
  · simp only [alifStep, if_pos hc]
    exact hxt
  · simp only [alifStep, if_neg hc]
    exact not_lt.mp hc

/-- Helper: elimination form of a spiking alifStep. -/
lemma alifStep_spike_elim (dt taum tref xt af tauf u : ℝ) (s s2 : AlifState) (interp : ℝ)
    (h : alifStep dt taum tref xt af tauf u s = (s2, some interp)) :
    xt < refScale dt (s.r - dt) * alifV1 dt taum u af (Real.exp (-dt / tauf) * s.fs) s.V ∧
    interp = spikeInterp dt xt
      (refScale dt (s.r - dt) * alifV1 dt taum u af (Real.exp (-dt / tauf) * s.fs) s.V)
      (alifV1 dt taum u af (Real.exp (-dt / tauf) * s.fs) s.V - s.V) ∧ s2.V = 0 := by
  by_cases hc : xt < refScale dt (s.r - dt) *
      alifV1 dt taum u af (Real.exp (-dt / tauf) * s.fs) s.V
  · simp only [alifStep, if_pos hc, Prod.mk.injEq, Option.some.injEq] at h
    exact ⟨hc, h.2.symm, by rw [← h.1]⟩
  · simp only [alifStep, if_neg hc, Prod.mk.injEq] at h
    exact absurd h.2 (by simp)

/-- Helper: every spike time recorded by the lifsoma loop from step index `i`
onward lies in the half-open window of some step `k ≥ i`, and the record is
strictly increasing. -/
lemma run_lifsoma_aux_window (dt tau tref xt : ℝ) (hdt : 0 < dt) (hxt : 0 < xt)
    (us : List ℝ) :
    ∀ (s : LifState) (i : ℕ), s.V ≤ xt →
      (∀ t ∈ run_lifsoma_aux dt tau tref xt us s i,
        ∃ k : ℕ, i ≤ k ∧ (k : ℝ) * dt ≤ t ∧ t < ((k : ℝ) + 1) * dt) ∧
      (run_lifsoma_aux dt tau tref xt us s i).Sorted (· < ·) := by
  induction us with
  | nil =>
    intro s i hV
    constructor
    · intro t ht
      simp [run_lifsoma_aux] at ht
    · simp [run_lifsoma_aux]
  | cons ui rest ih =>
    intro s i hV
    rcases hstep : lifStep dt tau tref xt ui s with ⟨s2, osp⟩
    have hV2 : s2.V ≤ xt := by
      have := lifStep_V_le dt tau tref xt ui s (le_of_lt hxt)
      rw [hstep] at this
      exact this
    obtain ⟨ihw, ihs⟩ := ih s2 (i + 1) hV2
    cases osp with
    | none =>
      have heq : run_lifsoma_aux dt tau tref xt (ui :: rest) s i =
          run_lifsoma_aux dt tau tref xt rest s2 (i + 1) := by
        simp only [run_lifsoma_aux, hstep]
      rw [heq]
      refine ⟨fun t ht => ?_, ihs⟩
      obtain ⟨k, hk, h1, h2⟩ := ihw t ht
      exact ⟨k, le_trans (Nat.le_succ i) hk, h1, h2⟩
    | some interp =>
      have heq : run_lifsoma_aux dt tau tref xt (ui :: rest) s i =
          (interp + (i : ℝ) * dt) :: run_lifsoma_aux dt tau tref xt rest s2 (i + 1) := by
        simp only [run_lifsoma_aux, hstep]
      obtain ⟨hc, hi, _⟩ := lifStep_spike_elim dt tau tref xt ui s s2 interp hstep
      have hbounds := interp_mem dt xt (lifV1 dt tau ui s.V) s.V (refScale dt (s.r - dt))
        hdt hxt (refScale_nonneg _ _) (refScale_le_one _ _) hV hc
      rw [← hi] at hbounds
      have hhead_lo : (i : ℝ) * dt ≤ interp + (i : ℝ) * dt := by linarith [hbounds.1]
      have hhead_hi : interp + (i : ℝ) * dt < ((i : ℝ) + 1) * dt := by
        have := hbounds.2
        nlinarith
      have htail_lo : ∀ t ∈ run_lifsoma_aux dt tau tref xt rest s2 (i + 1),
          ((i : ℝ) + 1) * dt ≤ t := by
        intro t ht
        obtain ⟨k, hk, h1, _⟩ := ihw t ht
        have hcast : ((i : ℝ) + 1) ≤ (k : ℝ) := by
          have : ((i + 1 : ℕ) : ℝ) ≤ (k : ℝ) := Nat.cast_le.mpr hk
          push_cast at this
          linarith
        calc ((i : ℝ) + 1) * dt ≤ (k : ℝ) * dt := by nlinarith
          _ ≤ t := h1
      rw [heq]
      constructor
      · intro t ht
        rcases List.mem_cons.mp ht with hhd | htl
        · exact ⟨i, le_refl i, by rw [hhd]; exact hhead_lo, by rw [hhd]; exact hhead_hi⟩
        · obtain ⟨k, hk, h1, h2⟩ := ihw t htl
          exact ⟨k, le_trans (Nat.le_succ i) hk, h1, h2⟩
      · rw [List.sorted_cons]
        refine ⟨fun b hb => ?_, ihs⟩
        calc interp + (i : ℝ) * dt < ((i : ℝ) + 1) * dt := hhead_hi
          _ ≤ b := htail_lo b hb

/-- Helper: the alifsoma analogue of run_lifsoma_aux_window. -/
lemma run_alifsoma_aux_window (dt taum tref xt af tauf : ℝ) (hdt : 0 < dt) (hxt : 0 < xt)
    (us : List ℝ) :
    ∀ (s : AlifState) (i : ℕ), s.V ≤ xt →
      (∀ t ∈ run_alifsoma_aux dt taum tref xt af tauf us s i,
        ∃ k : ℕ, i ≤ k ∧ (k : ℝ) * dt ≤ t ∧ t < ((k : ℝ) + 1) * dt) ∧
      (run_alifsoma_aux dt taum tref xt af tauf us s i).Sorted (· < ·) := by
  induction us with
  | nil =>
    intro s i hV
    constructor
    · intro t ht
      simp [run_alifsoma_aux] at ht
    · simp [run_alifsoma_aux]
  | cons ui rest ih =>
    intro s i hV
    rcases hstep : alifStep dt taum tref xt af tauf ui s with ⟨s2, osp⟩
    have hV2 : s2.V ≤ xt := by
      have := alifStep_V_le dt taum tref xt af tauf ui s (le_of_lt hxt)
      rw [hstep] at this
      exact this
    obtain ⟨ihw, ihs⟩ := ih s2 (i + 1) hV2
    cases osp with
    | none =>
      have heq : run_alifsoma_aux dt taum tref xt af tauf (ui :: rest) s i =
          run_alifsoma_aux dt taum tref xt af tauf rest s2 (i + 1) := by
        simp only [run_alifsoma_aux, hstep]
      rw [heq]
      refine ⟨fun t ht => ?_, ihs⟩
      obtain ⟨k, hk, h1, h2⟩ := ihw t ht
      exact ⟨k, le_trans (Nat.le_succ i) hk, h1, h2⟩
    | some interp =>
      have heq : run_alifsoma_aux dt taum tref xt af tauf (ui :: rest) s i =
          (interp + (i : ℝ) * dt) ::
            run_alifsoma_aux dt taum tref xt af tauf rest s2 (i + 1) := by
        simp only [run_alifsoma_aux, hstep]
      obtain ⟨hc, hi, _⟩ := alifStep_spike_elim dt taum tref xt af tauf ui s s2 interp hstep
      have hbounds := interp_mem dt xt
        (alifV1 dt taum ui af (Real.exp (-dt / tauf) * s.fs) s.V) s.V
        (refScale dt (s.r - dt)) hdt hxt (refScale_nonneg _ _) (refScale_le_one _ _) hV hc
      rw [← hi] at hbounds
      have hhead_lo : (i : ℝ) * dt ≤ interp + (i : ℝ) * dt := by linarith [hbounds.1]
      have hhead_hi : interp + (i : ℝ) * dt < ((i : ℝ) + 1) * dt := by
        have := hbounds.2
        nlinarith
      have htail_lo : ∀ t ∈ run_alifsoma_aux dt taum tref xt af tauf rest s2 (i + 1),
          ((i : ℝ) + 1) * dt ≤ t := by
        intro t ht
        obtain ⟨k, hk, h1, _⟩ := ihw t ht
        have hcast : ((i : ℝ) + 1) ≤ (k : ℝ) := by
          have : ((i + 1 : ℕ) : ℝ) ≤ (k : ℝ) := Nat.cast_le.mpr hk
          push_cast at this
          linarith
        calc ((i : ℝ) + 1) * dt ≤ (k : ℝ) * dt := by nlinarith
          _ ≤ t := h1
      rw [heq]
      constructor
      · intro t ht
        rcases List.mem_cons.mp ht with hhd | htl
        · exact ⟨i, le_refl i, by rw [hhd]; exact hhead_lo, by rw [hhd]; exact hhead_hi⟩
        · obtain ⟨k, hk, h1, h2⟩ := ihw t htl
          exact ⟨k, le_trans (Nat.le_succ i) hk, h1, h2⟩
      · rw [List.sorted_cons]
        refine ⟨fun b hb => ?_, ihs⟩
        calc interp + (i : ℝ) * dt < ((i : ℝ) + 1) * dt := hhead_hi
          _ ≤ b := htail_lo b hb

/-- C9 (amended): for every run of run_lifsoma or run_alifsoma with `dt > 0`
and threshold `xt > 0`, the recorded spike-time sequence of a neuron is
strictly increasing; at most one spike is recorded per step, and the spike
recorded at step `k` carries a time in the half-open window
`[k*dt, (k+1)*dt)` with `k ≥ 1` (the left endpoint is attainable in the
degenerate case where the pre-step voltage equals the threshold exactly, so
the windows are half-open rather than open). -/
theorem c9_spike_record (dt tref xt : ℝ) (hdt : 0 < dt) (hxt : 0 < xt) :
    (∀ (tau : ℝ) (u : List ℝ),
      (run_lifsoma dt u tau tref xt).Sorted (· < ·) ∧
      ∀ t ∈ run_lifsoma dt u tau tref xt,
        ∃ k : ℕ, 1 ≤ k ∧ (k : ℝ) * dt ≤ t ∧ t < ((k : ℝ) + 1) * dt) ∧
    (∀ (taum af tauf : ℝ) (u : List ℝ),
      (run_alifsoma dt u taum tref xt af tauf).Sorted (· < ·) ∧
      ∀ t ∈ run_alifsoma dt u taum tref xt af tauf,
        ∃ k : ℕ, 1 ≤ k ∧ (k : ℝ) * dt ≤ t ∧ t < ((k : ℝ) + 1) * dt) := by
  constructor
  · intro tau u
    have h := run_lifsoma_aux_window dt tau tref xt hdt hxt (u.drop 1) ⟨0, 0⟩ 1
      (le_of_lt hxt)
    exact ⟨h.2, h.1⟩
  · intro taum af tauf u
    have h := run_alifsoma_aux_window dt taum tref xt af tauf hdt hxt (u.drop 1) ⟨0, 0, 0⟩ 1
      (le_of_lt hxt)
    exact ⟨h.2, h.1⟩

/-- Witness for c9_spike_record at dt = 1, xt = 1. -/
theorem c9_spike_record_witness :
    (0:ℝ) < 1 ∧
    ∀ (tau : ℝ) (u : List ℝ),
      (run_lifsoma 1 u tau 0 1).Sorted (· < ·) ∧
      ∀ t ∈ run_lifsoma 1 u tau 0 1,
        ∃ k : ℕ, 1 ≤ k ∧ (k : ℝ) * 1 ≤ t ∧ t < ((k : ℝ) + 1) * 1 :=
  ⟨by norm_num, (c9_spike_record 1 0 1 (by norm_num) (by norm_num)).1⟩

/-- Counterexample to C9 as stated: with dt = 1, tau = 1, tref = 0, xt = 1
and inputs `[0, (1-e⁻¹)⁻¹, 10]`, step 1 brings the voltage exactly to the
threshold (no spike) and step 2 spikes with overshoot 1, so the recorded
time is exactly 2 = 2*dt: it sits on a window boundary and lies strictly
inside no step window `(k*dt, (k+1)*dt)`. -/
theorem c9_counterexample :
    run_lifsoma 1 [0, (1 - Real.exp (-1))⁻¹, 10] 1 0 1 = [2] ∧
    ∀ k : ℕ, ¬((k : ℝ) * 1 < 2 ∧ (2:ℝ) < ((k : ℝ) + 1) * 1) := by
  have hEhalf := exp_neg_one_lt_half
  have hEpos : (0:ℝ) < Real.exp (-1) := Real.exp_pos _
  have hE1 : Real.exp (-1 : ℝ) < 1 := by linarith
  have hEne : (1:ℝ) - Real.exp (-1) ≠ 0 := ne_of_gt (by linarith)
  constructor
  · have h1 : lifStep 1 1 0 1 ((1 - Real.exp (-1))⁻¹) ⟨0, 0⟩ = (⟨1, -1⟩, none) := by
      have hv : lifV1 1 1 ((1 - Real.exp (-1))⁻¹) 0 = 1 := by
        rw [lifV1]
        rw [show (-(1:ℝ)) / 1 = -1 by norm_num]
        rw [mul_zero, zero_add, mul_inv_cancel₀ hEne]
      have hsc : refScale 1 ((0:ℝ) - 1) = 1 := by
        rw [refScale]; norm_num
      have hcond : ¬ ((1:ℝ) < refScale 1 ((0:ℝ) - 1) *
          lifV1 1 1 ((1 - Real.exp (-1))⁻¹) 0) := by
        rw [hsc, hv]; norm_num
      simp only [lifStep, if_neg hcond, hsc, hv]
      norm_num
    have hv1gt : (1:ℝ) < lifV1 1 1 10 1 := by
      rw [lifV1]
      rw [show (-(1:ℝ)) / 1 = -1 by norm_num]
      nlinarith
    have h2 : lifStep 1 1 0 1 10 ⟨1, -1⟩ = (⟨0, 0⟩, some 0) := by
      have hsc2 : refScale 1 ((-1:ℝ) - 1) = 1 := by
        rw [refScale]; norm_num
      have hcond2 : (1:ℝ) < refScale 1 ((-1:ℝ) - 1) * lifV1 1 1 10 1 := by
        rw [hsc2, one_mul]; exact hv1gt
      have hv1ne : lifV1 1 1 10 1 - 1 ≠ 0 := ne_of_gt (by linarith)
      have hsi : spikeInterp 1 1 (refScale 1 ((-1:ℝ) - 1) * lifV1 1 1 10 1)
          (lifV1 1 1 10 1 - 1) = 0 := by
        rw [hsc2, one_mul, spikeInterp, div_self hv1ne]
        ring
      simp only [lifStep, if_pos hcond2, hsi]
      norm_num
    rw [run_lifsoma]
    rw [show ([0, (1 - Real.exp (-1))⁻¹, 10] : List ℝ).drop 1 =
      [(1 - Real.exp (-1))⁻¹, 10] from rfl]
    simp only [run_lifsoma_aux, h1, h2]
    norm_num
  · intro k hk
    obtain ⟨ha, hb⟩ := hk
    rw [mul_one] at ha
    have ha' : k < 2 := by exact_mod_cast ha
    have hb' : (1:ℝ) < (k : ℝ) := by linarith
    have hb2 : 1 < k := by exact_mod_cast hb'
    omega

/-! ## C10: in-place reshape of the caller's input array -/

/-- A numpy array as seen by the callers of run_lifsoma / run_alifsoma: a
shape together with its (flat) data. -/
structure NDArray where
  shape : List ℕ
  data : List ℝ

/-- Embedding of the input-handling prologue shared verbatim by
`run_lifsoma` (lines 454-459) and `run_alifsoma` (lines 535-540): `nneurons`
is `u.shape[1]` when `u` has more than one axis and 1 otherwise, and when
`nneurons == 1` the caller's array is reshaped in place by
`u.shape = u.shape[0], 1`.  These are the only statements in either
function that touch the caller's array; its data is never written. -/
def soma_input_reshape (u : NDArray) : NDArray :=
  let nneurons := if u.shape.length > 1 then u.shape.getD 1 0 else 1
  if nneurons = 1 then ⟨[u.shape.getD 0 0, 1], u.data⟩ else u

/-- C10: run_lifsoma and run_alifsoma reshape a 1-d caller array of length
`n` in place to shape `(n, 1)` — the effect is visible to the caller after
the call — while the array's data (and hence every other caller-visible
component) is left unchanged for every input. -/
theorem c10_inplace_reshape :
    (∀ n : ℕ, ∀ d : List ℝ,
      soma_input_reshape ⟨[n], d⟩ = ⟨[n, 1], d⟩) ∧
    (∀ u : NDArray, (soma_input_reshape u).data = u.data) := by
  constructor
  · intro n d
    rw [soma_input_reshape]
    norm_num
  · intro u
    rw [soma_input_reshape]
    by_cases h : (if u.shape.length > 1 then u.shape.getD 1 0 else 1) = 1
    · rw [if_pos h]
    · rw [if_neg h]

/-! ## C5: steady-state check of the empirical evaluators -/

/-- Embedding of the post-simulation tail of `sim_lif_fi` (lines 360-365):
from the spike times returned by run_lifsoma, take the last three, form the
two inter-spike intervals, set the warning flag (the source prints a
warning) when `(isi[-2]-isi[-1])/isi[-2] > .01`, and return `1/isi[-1]`
regardless of the flag.  `none` models the IndexError Python raises with
fewer than three spikes. -/
def sim_lif_fi_tail (spike_times : List ℝ) : Option (Bool × ℝ) :=
  match spike_times.reverse with
  | t1 :: t2 :: t3 :: _ =>
    some (decide (0.01 < ((t2 - t3) - (t1 - t2)) / (t2 - t3)), (t1 - t2)⁻¹)
  | _ => none

/-- Embedding of the tail of `_sim_alif_fi_worker_unwrapped` (lines
383-387): the same steady-state check is an `assert`, so a violation raises
an AssertionError (modelled as `Except.error`) instead of returning the
estimate `1/isi[-1]`. -/
def sim_alif_fi_worker_tail (spike_times : List ℝ) : Except String ℝ :=
  match spike_times.reverse with
  | t1 :: t2 :: t3 :: _ =>
    if ((t2 - t3) - (t1 - t2)) / (t2 - t3) < 0.01 then Except.ok (t1 - t2)⁻¹
    else Except.error "sim_alif_fi: Greater than 1 percent change in isi between last two isi"
  | _ => Except.error "IndexError"

/-- C5 (amended): when the steady-state check fails (relative change between
the last two inter-spike intervals above 1%), sim_lif_fi still returns the
estimate `1/isi[-1]` and only sets a warning flag, but the per-input worker
of sim_alif_fi raises an AssertionError (an exception) instead of returning
the estimate. -/
theorem c5_steady_state_check (l : List ℝ) (t1 t2 t3 : ℝ) (rest : List ℝ)
    (hrev : l.reverse = t1 :: t2 :: t3 :: rest)
    (hfail : 0.01 < ((t2 - t3) - (t1 - t2)) / (t2 - t3)) :
    sim_lif_fi_tail l = some (true, (t1 - t2)⁻¹) ∧
    sim_alif_fi_worker_tail l =
      Except.error "sim_alif_fi: Greater than 1 percent change in isi between last two isi" := by
  constructor
  · rw [sim_lif_fi_tail, hrev]
    simp [hfail]
  · rw [sim_alif_fi_worker_tail, hrev]
    exact if_neg (not_lt.mpr (le_of_lt hfail))

/-- Witness for c5_steady_state_check on the spike times [0, 2, 3], whose
last two intervals are 2 and 1 (a 50% change). -/
theorem c5_steady_state_check_witness :
    (([0, 2, 3] : List ℝ).reverse = 3 :: 2 :: 0 :: [] ∧
      (0.01:ℝ) < (((2:ℝ) - 0) - (3 - 2)) / (2 - 0)) ∧
    (sim_lif_fi_tail [0, 2, 3] = some (true, ((3:ℝ) - 2)⁻¹) ∧
     sim_alif_fi_worker_tail [0, 2, 3] =
       Except.error "sim_alif_fi: Greater than 1 percent change in isi between last two isi") :=
  ⟨⟨by norm_num, by norm_num⟩,
    c5_steady_state_check [0, 2, 3] 3 2 0 [] (by norm_num) (by norm_num)⟩

/-- Counterexample to C5 as stated: on the spike times [0, 2, 3] the
steady-state check fails and the sim_alif_fi worker returns an
AssertionError - an exception, not a warning with the estimate. -/
theorem c5_counterexample :
    sim_alif_fi_worker_tail [0, 2, 3] =
      Except.error "sim_alif_fi: Greater than 1 percent change in isi between last two isi" := by
  have hrev : ([0, 2, 3] : List ℝ).reverse = 3 :: 2 :: 0 :: [] := by norm_num
  rw [sim_alif_fi_worker_tail, hrev]
  exact if_neg (by norm_num : ¬ (((2:ℝ) - 0) - (3 - 2)) / (2 - 0) < 0.01)

/-! ## C8: num_alif_fi short-circuits sub-minimum drives to rate 0 -/

/-- Embedding of `_alif_u_tspk` (lines 107-117): the input that produces
spike interval `tspk` for an adaptive LIF neuron, with separate algebraic
branches for `taum != tauf` and `taum == tauf`. -/
def _alif_u_tspk (tspk taum tref xt af tauf : ℝ) : ℝ :=
  let t0 := 1 / (1 - Real.exp (-tspk / taum))
  if taum ≠ tauf then
    let t1 := af * Real.exp (-tref / tauf) *
      (Real.exp (-tspk / tauf) - Real.exp (-tspk / taum))
    let t2 := (1 - Real.exp (-(tref + tspk) / tauf)) * (taum - tauf)
    t0 * (xt - t1 / t2)
  else
    let t1 := -af * tspk * Real.exp (-(tref + tspk) / taum)
    let t2 := taum ^ 2 * (1 - Real.exp (-(tref + tspk) / taum))
    t0 * (xt - t1 / t2)

/-- One bracket update of the vectorized bisection of `num_alif_fi` (lines
175-184) on a selected element `(u, tspk_low, tspk_high)`: where the
estimate `uhat` is too high the lower bracket moves up to the midpoint,
otherwise the upper bracket moves down. -/
def alif_bisect_update (taum tref xt af tauf : ℝ) (e : ℝ × ℝ × ℝ) : ℝ × ℝ × ℝ :=
  let tspk := (e.2.2 + e.2.1) / 2
  let uhat := _alif_u_tspk tspk taum tref xt af tauf
  if e.1 < uhat then (e.1, tspk, e.2.2) else (e.1, e.2.1, tspk)

/-- Scalar termination quantity of `num_alif_fi` (line 177):
`max_diff = np.max(np.abs(u[idx] - uhat))` over the selected elements. -/
def alif_bisect_maxdiff (taum tref xt af tauf : ℝ) (elems : List (ℝ × ℝ × ℝ)) : ℝ :=
  (elems.map (fun e =>
    |e.1 - _alif_u_tspk ((e.2.2 + e.2.1) / 2) taum tref xt af tauf|)).foldr max 0

/-- The bisection loop of `num_alif_fi` (lines 172-185): in each iteration
the midpoints `tspk` are taken, the loop breaks early when `max_diff < tol`
(returning the current midpoints), and otherwise the brackets are updated;
when the iteration budget runs out the midpoints of the last executed
iteration are returned.  The fuel-0 case is unreachable for the source's
`max_iter >= 1` (Python would raise a NameError there). -/
def alif_bisect_loop (taum tref xt af tauf tol : ℝ) :
    ℕ → List (ℝ × ℝ × ℝ) → List ℝ
  | 0, elems => elems.map (fun e => (e.2.2 + e.2.1) / 2)
  | n + 1, elems =>
    if alif_bisect_maxdiff taum tref xt af tauf elems < tol ∨ n = 0 then
      elems.map (fun e => (e.2.2 + e.2.1) / 2)
    else
      alif_bisect_loop taum tref xt af tauf tol n
        (elems.map (alif_bisect_update taum tref xt af tauf))

/-- Scatter of the bisection results back into the full output array of
`num_alif_fi` (lines 156, 185): positions whose input does not exceed
`u_min` keep the `np.zeros_like` value 0, the others receive
`1/(tref + tspk)` from the solved spike intervals in order. -/
def alif_scatter (u_min tref : ℝ) : List ℝ → List ℝ → List ℝ
  | [], _ => []
  | x :: xs, tspks =>
    if u_min < x then
      match tspks with
      | t :: ts => 1 / (tref + t) :: alif_scatter u_min tref xs ts
      | [] => 0 :: alif_scatter u_min tref xs []
    else 0 :: alif_scatter u_min tref xs tspks

/-- Embedding of `num_alif_fi` (lines 120-188): the bisection bracket is
derived from `min_f` and `max_f` (defaulting to `1/tref`), inputs at or
below the minimum admissible drive `u_min = _alif_u_tspk(1/min_f - tref)`
are excluded from the search and left at firing rate 0 (with an early
return when no input exceeds `u_min`), and the selected inputs are solved
by the shared bisection loop. -/
def num_alif_fi (u : List ℝ) (taum tref xt af tauf min_f : ℝ) (max_f : Option ℝ)
    (max_iter : ℕ) (tol : ℝ) : List ℝ :=
  let f_high := max_f.getD (1 / tref)
  let f_low := min_f
  let tspk_high := 1 / f_low - tref
  let tspk_low := 1 / f_high - tref
  let u_min := _alif_u_tspk tspk_high taum tref xt af tauf
  if ∀ x ∈ u, ¬ u_min < x then u.map (fun _ => 0)
  else
    let elems := (u.filter (fun x => u_min < x)).map (fun x => (x, tspk_low, tspk_high))
    alif_scatter u_min tref u (alif_bisect_loop taum tref xt af tauf tol max_iter elems)

/-- Helper: a position whose input does not exceed `u_min` receives 0 from
the scatter, whatever the solved spike intervals are. -/
lemma alif_scatter_below (u_min tref : ℝ) :
    ∀ (xs ts : List ℝ) (i : ℕ) (x : ℝ), xs.get? i = some x → ¬ u_min < x →
      (alif_scatter u_min tref xs ts).get? i = some 0 := by
  intro xs
  induction xs with
  | nil =>
    intro ts i x hx
    simp at hx
  | cons y ys ih =>
    intro ts i x hx hle
    cases i with
    | zero =>
      simp only [List.get?] at hx
      injection hx with hx0
      subst hx0
      simp only [alif_scatter]
      rw [if_neg hle]
      rfl
    | succ j =>
      simp only [List.get?] at hx
      simp only [alif_scatter]
      by_cases hy : u_min < y
      · rw [if_pos hy]
        cases ts with
        | nil => exact ih [] j x hx hle
        | cons t ts' => exact ih ts' j x hx hle
      · rw [if_neg hy]
        exact ih ts j x hx hle

/-- C8: every input element at or below the minimum admissible drive
`u_min = _alif_u_tspk(1/min_f - tref, ...)` yields firing rate 0 in
num_alif_fi's output (the embedding is a total function, so no error is
raised), and such an element is excluded from the selected inputs that the
bisection search operates on. -/
theorem c8_below_min_drive (u : List ℝ) (taum tref xt af tauf min_f : ℝ)
    (max_f : Option ℝ) (max_iter : ℕ) (tol : ℝ) (i : ℕ) (x : ℝ)
    (hx : u.get? i = some x)
    (hbelow : x ≤ _alif_u_tspk (1 / min_f - tref) taum tref xt af tauf) :
    (num_alif_fi u taum tref xt af tauf min_f max_f max_iter tol).get? i = some 0 ∧
    x ∉ u.filter (fun y => _alif_u_tspk (1 / min_f - tref) taum tref xt af tauf < y) := by
  have hnlt : ¬ _alif_u_tspk (1 / min_f - tref) taum tref xt af tauf < x :=
    not_lt.mpr hbelow
  constructor
  · simp only [num_alif_fi]
    by_cases hall : ∀ y ∈ u, ¬ _alif_u_tspk (1 / min_f - tref) taum tref xt af tauf < y
    · rw [if_pos hall]
      obtain ⟨hi, -⟩ := List.get?_eq_some.mp hx
      simp [List.getElem?_replicate, hi]
    · rw [if_neg hall]
      exact alif_scatter_below _ _ u _ i x hx hnlt
  · intro hmem
    have hf := List.mem_filter.mp hmem
    exact hnlt (by simpa using hf.2)

/-- Witness for c8_below_min_drive: the single input 0 with taum = 1,
tref = 0, xt = 1, af = 0, tauf = 2, min_f = 1 lies below the minimum
admissible drive `1/(1-e⁻¹)` and gets rate 0. -/
theorem c8_below_min_drive_witness :
    (([0] : List ℝ).get? 0 = some 0 ∧
      (0:ℝ) ≤ _alif_u_tspk (1 / 1 - 0) 1 0 1 0 2) ∧
    ((num_alif_fi [0] 1 0 1 0 2 1 none 100 0.001).get? 0 = some 0 ∧
      (0:ℝ) ∉ ([0] : List ℝ).filter
        (fun y => _alif_u_tspk (1 / 1 - 0) 1 0 1 0 2 < y)) := by
  have hE : Real.exp (-1 : ℝ) < 1 := lt_trans exp_neg_one_lt_half (by norm_num)
  have hb : (0:ℝ) ≤ _alif_u_tspk (1 / 1 - 0) 1 0 1 0 2 := by
    simp only [_alif_u_tspk]
    rw [if_pos (show (1:ℝ) ≠ 2 by norm_num)]
    norm_num
  exact ⟨⟨rfl, hb⟩, c8_below_min_drive [0] 1 0 1 0 2 1 none 100 0.001 0 0 rfl hb⟩

/-! ## C7: the taum == tauf branch is the limit of the taum != tauf branch -/

/-- C7: for `tspk > 0`, `taum > 0`, `tref ≥ 0` and any `xt`, `af`, the
`taum != tauf` branch of `_alif_u_tspk` tends, as `tauf → taum` (through
values distinct from `taum`), to the value of the `taum == tauf` branch at
`tauf = taum`: the function is continuous in `tauf` at `tauf = taum`. -/
theorem c7_alif_u_tspk_continuity (tspk taum tref xt af : ℝ)
    (htspk : 0 < tspk) (htaum : 0 < taum) (htref : 0 ≤ tref) :
    Tendsto (fun tauf => _alif_u_tspk tspk taum tref xt af tauf) (𝓝[≠] taum)
      (𝓝 (_alif_u_tspk tspk taum tref xt af taum)) := by
  have htaumne : taum ≠ 0 := ne_of_gt htaum
  have hBlt : Real.exp (-(tref + tspk) / taum) < 1 := by
    apply Real.exp_lt_one_iff.mpr
    apply div_neg_of_neg_of_pos _ htaum
    linarith
  have hBne : (1 : ℝ) - Real.exp (-(tref + tspk) / taum) ≠ 0 := by
    have : 0 < 1 - Real.exp (-(tref + tspk) / taum) := by linarith
    exact ne_of_gt this
  -- derivative of tau ↦ exp(-tspk/tau) at taum
  have hinv : HasDerivAt (fun τ : ℝ => -tspk / τ) (tspk / taum ^ 2) taum := by
    have h := hasDerivAt_inv htaumne
    have h2 := HasDerivAt.const_mul (-tspk) h
    have hfun : (fun τ : ℝ => -tspk / τ) = fun y : ℝ => -tspk * y⁻¹ := by
      funext y
      rw [div_eq_mul_inv]
    rw [hfun]
    convert h2 using 1
    field_simp
  have hder : HasDerivAt (fun τ : ℝ => Real.exp (-tspk / τ))
      (Real.exp (-tspk / taum) * (tspk / taum ^ 2)) taum := hinv.exp
  -- the difference-quotient factor
  have hslope : Tendsto
      (fun τ => (Real.exp (-tspk / τ) - Real.exp (-tspk / taum)) / (taum - τ))
      (𝓝[≠] taum) (𝓝 (-(Real.exp (-tspk / taum) * (tspk / taum ^ 2)))) := by
    have h1 := hasDerivAt_iff_tendsto_slope.mp hder
    refine (h1.neg).congr fun τ => ?_
    rw [slope_def_field]
    rw [← div_neg, neg_sub]
  -- the continuous factor
  have hAB : Tendsto
      (fun τ : ℝ => af * Real.exp (-tref / τ) / (1 - Real.exp (-(tref + tspk) / τ)))
      (𝓝[≠] taum)
      (𝓝 (af * Real.exp (-tref / taum) / (1 - Real.exp (-(tref + tspk) / taum)))) := by
    apply Tendsto.mono_left _ nhdsWithin_le_nhds
    apply ContinuousAt.tendsto
    apply ContinuousAt.div
    · exact continuousAt_const.mul
        (Real.continuous_exp.continuousAt.comp
          (continuousAt_const.div continuousAt_id htaumne))
    · exact continuousAt_const.sub
        (Real.continuous_exp.continuousAt.comp
          (continuousAt_const.div continuousAt_id htaumne))
    · exact hBne
  have hprod := hAB.mul hslope
  have htend : Tendsto
      (fun τ : ℝ => 1 / (1 - Real.exp (-tspk / taum)) *
        (xt - af * Real.exp (-tref / τ) / (1 - Real.exp (-(tref + tspk) / τ)) *
          ((Real.exp (-tspk / τ) - Real.exp (-tspk / taum)) / (taum - τ))))
      (𝓝[≠] taum)
      (𝓝 (1 / (1 - Real.exp (-tspk / taum)) *
        (xt - af * Real.exp (-tref / taum) / (1 - Real.exp (-(tref + tspk) / taum)) *
          -(Real.exp (-tspk / taum) * (tspk / taum ^ 2))))) :=
    (tendsto_const_nhds.sub hprod).const_mul (1 / (1 - Real.exp (-tspk / taum)))
  -- on the punctured neighborhood the function is the taum != tauf branch
  have hev : ∀ᶠ τ in 𝓝[≠] taum,
      (1 / (1 - Real.exp (-tspk / taum)) *
        (xt - af * Real.exp (-tref / τ) / (1 - Real.exp (-(tref + tspk) / τ)) *
          ((Real.exp (-tspk / τ) - Real.exp (-tspk / taum)) / (taum - τ)))) =
      _alif_u_tspk tspk taum tref xt af τ := by
    filter_upwards [self_mem_nhdsWithin] with τ hτ
    have hne : taum ≠ τ := Ne.symm hτ
    simp only [_alif_u_tspk]
    rw [if_pos hne]
    rw [div_mul_div_comm]
  -- the limit is exactly the value of the taum == tauf branch
  have hval : 1 / (1 - Real.exp (-tspk / taum)) *
      (xt - af * Real.exp (-tref / taum) / (1 - Real.exp (-(tref + tspk) / taum)) *
        -(Real.exp (-tspk / taum) * (tspk / taum ^ 2))) =
      _alif_u_tspk tspk taum tref xt af taum := by
    simp only [_alif_u_tspk]
    rw [if_neg (by simp : ¬ taum ≠ taum)]
    congr 1
    congr 1
    have hEadd : Real.exp (-(tref + tspk) / taum) =
        Real.exp (-tref / taum) * Real.exp (-tspk / taum) := by
      rw [← Real.exp_add]
      congr 1
      ring
    rw [hEadd]
    have hBne2 : (1 : ℝ) - Real.exp (-tref / taum) * Real.exp (-tspk / taum) ≠ 0 := by
      rw [← hEadd]
      exact hBne
    field_simp
    ring
  rw [← hval]
  exact Tendsto.congr' hev htend

/-- Witness for c7_alif_u_tspk_continuity at tspk = 1, taum = 1, tref = 0,
xt = 1, af = 1. -/
theorem c7_alif_u_tspk_continuity_witness :
    (0:ℝ) < 1 ∧ (0:ℝ) ≤ 0 ∧
    Tendsto (fun tauf => _alif_u_tspk 1 1 0 1 1 tauf) (𝓝[≠] (1:ℝ))
      (𝓝 (_alif_u_tspk 1 1 0 1 1 1)) :=
  ⟨by norm_num, by norm_num,
    c7_alif_u_tspk_continuity 1 1 0 1 1 (by norm_num) (by norm_num) (by norm_num)⟩
